import Mathlib

/-!
Shallow embedding of the `rsdiv` repository core, and verification of the
frozen claims about it.

Source files embedded:
* `src/rsdiv/evaluation/diversity_metrics.py` — `DiversityMetrics`
* `src/rsdiv/recommenders/ials.py` — `IALSRecommender`

Conventions:
* `numpy` float arithmetic is modelled exactly over `ℚ` (or `ℝ` where the
  source calls `log`); machine floats are treated as exact rationals/reals.
* A python function that can raise is modelled as `Except PyErr _`.
* Values owned by `base.py` (a repository file absent from `src/`) are
  modelled from the specification and marked as such in their doc comments.
-/

namespace Rsdiv

/-- Python exceptions that the embedded code can raise.
`stopIteration` is what `next(iter(items))` raises on an empty iterable;
`inputError` is the error class the specification describes (it does not
occur anywhere in the two source files); `typeError` models the runtime
type errors of flattening/counting heterogeneous inputs. -/
inductive PyErr where
  | stopIteration
  | inputError
  | typeError
  deriving DecidableEq, Repr

/-- An element of the `items` argument of `DiversityMetrics` entry points:
either a scalar category label (this includes python strings, which the
source explicitly refuses to flatten) or a non-string sequence of labels. -/
inductive PyItem (α : Type) where
  | scalar (a : α)
  | seq (l : List α)
  deriving DecidableEq, Repr

/-- The labels contributed by one item once the flattening branch is taken. -/
def PyItem.labels {α : Type} : PyItem α → List α
  | .scalar a => [a]
  | .seq l => l

/-- The label of a scalar item, `none` on a sequence item. -/
def PyItem.asScalar {α : Type} : PyItem α → Option α
  | .scalar a => some a
  | .seq _ => none

/-- Whether an item is a scalar label. -/
def PyItem.isScalar {α : Type} : PyItem α → Bool
  | .scalar _ => true
  | .seq _ => false

/-- Sort a list of naturals in descending order (`np.sort(x)[::-1]`, and also
the order in which `pandas.Series.value_counts` reports counts). -/
def sortDescN (l : List ℕ) : List ℕ :=
  List.insertionSort (fun a b => b ≤ a) l

/-- Sort a list of rationals in descending order (`pmf.sort(); pmf = pmf[::-1]`). -/
def sortDescQ (l : List ℚ) : List ℚ :=
  List.insertionSort (fun a b => b ≤ a) l

/-- Sort a list of naturals in ascending order; used only to state the
specification's "sort histogram ascending" wording. -/
def sortAscN (l : List ℕ) : List ℕ :=
  List.insertionSort (fun a b => a ≤ b) l

/-- Pointwise cast of a count vector to rationals (`numpy` implicit
int→float conversion). -/
def castQ (l : List ℕ) : List ℚ :=
  l.map Nat.cast

/-- Pointwise cast of a count vector to reals. -/
noncomputable def castR (l : List ℕ) : List ℝ :=
  l.map Nat.cast

/-- Embedding of `pandas.Series(flatten_items).value_counts()` seen as
`np.asarray`: the multiset of per-label counts of `l`, ordered by descending
count.  (The tie-break order among equal counts is irrelevant to every claim;
we fix the insertion-sort order.) -/
def valueCounts {α : Type} [DecidableEq α] (l : List α) : List ℕ :=
  sortDescN (l.dedup.map fun a => l.count a)

/-- Embedding of `DiversityMetrics._get_histogram`.

```
first_element = next(iter(items))                -- StopIteration on []
if isinstance(first_element, Sequence) and not isinstance(first_element, str):
    items = chain.from_iterable(items)
flatten_items = list(items)
return np.asarray(pd.Series(flatten_items).value_counts())
```

A heterogeneous list (sequence-first with a scalar later, or scalar-first
with a sequence later) is a python runtime `TypeError` (non-iterable element
under `chain.from_iterable`, unhashable element under `value_counts`); we
model both as `PyErr.typeError`. -/
def _get_histogram {α : Type} [DecidableEq α] (items : List (PyItem α)) :
    Except PyErr (List ℕ) :=
  match items with
  | [] => Except.error PyErr.stopIteration
  | PyItem.seq _ :: _ =>
      if items.all (fun it => !it.isScalar) then
        Except.ok (valueCounts (items.map PyItem.labels).flatten)
      else Except.error PyErr.typeError
  | PyItem.scalar _ :: _ =>
      if items.all (fun it => it.isScalar) then
        Except.ok (valueCounts (items.filterMap PyItem.asScalar))
      else Except.error PyErr.typeError

/-- The raw flattened observation stream counted by `_get_histogram`:
all labels when the first element is a (non-string) sequence, the scalar
items themselves otherwise. -/
def rawLabels {α : Type} (items : List (PyItem α)) : List α :=
  match items with
  | [] => []
  | PyItem.seq _ :: _ => (items.map PyItem.labels).flatten
  | PyItem.scalar _ :: _ => items.filterMap PyItem.asScalar

/-- Homogeneity of the input: all items scalar labels, or all items
label sequences.  This is the regime every claim about the histogram
speaks about (mixed inputs are a python `TypeError`). -/
def Homog {α : Type} (items : List (PyItem α)) : Prop :=
  items.all (fun it => it.isScalar) = true ∨ items.all (fun it => !it.isScalar) = true

/-- Embedding of `categories_histogram @ np.arange(k, k + len)`: the dot
product of a count vector with consecutive integer ranks starting at `k`. -/
def dotRank : List ℕ → ℕ → ℕ
  | [], _ => 0
  | a :: s, k => a * k + dotRank s (k + 1)

/-- Embedding of `DiversityMetrics._gini_coefficient`.

```
if sort: categories_histogram = np.sort(categories_histogram)[::-1]
count = categories_histogram.shape[0]
area = categories_histogram @ np.arange(1, count + 1)
area /= histogram_sum * count
return 1 - 2 * area + 1 / count
```
-/
def _gini_coefficient (categories_histogram : List ℕ) (histogram_sum : ℚ)
    (sort : Bool) : ℚ :=
  let ch := if sort then sortDescN categories_histogram else categories_histogram
  let count : ℕ := ch.length
  let area : ℚ := (dotRank ch 1 : ℚ) / (histogram_sum * count)
  1 - 2 * area + 1 / count

/-- Embedding of the classmethod `DiversityMetrics.gini_coefficient`. -/
def gini_coefficientE {α : Type} [DecidableEq α] (items : List (PyItem α)) :
    Except PyErr ℚ :=
  (_get_histogram items).map fun histogram =>
    _gini_coefficient histogram (histogram.sum : ℚ) true

/-- Rational-valued rank-weighted dot product, for the ECS embedding. -/
def dotRankQ : List ℚ → ℕ → ℚ
  | [], _ => 0
  | a :: s, k => a * k + dotRankQ s (k + 1)

/-- Embedding of `DiversityMetrics._effective_catalog_size`.

```
pmf = categories_histogram / histogram_sum
if sort: pmf.sort(); pmf = pmf[::-1]
ecs = pmf @ np.arange(1, categories_histogram.shape[0] + 1) * 2 - 1
```
-/
def _effective_catalog_size (categories_histogram : List ℕ) (histogram_sum : ℚ)
    (sort : Bool) : ℚ :=
  let pmf := (castQ categories_histogram).map fun c => c / histogram_sum
  let pmf := if sort then sortDescQ pmf else pmf
  dotRankQ pmf 1 * 2 - 1

/-- Embedding of the classmethod `DiversityMetrics.effective_catalog_size`. -/
def effective_catalog_sizeE {α : Type} [DecidableEq α] (items : List (PyItem α)) :
    Except PyErr ℚ :=
  (_get_histogram items).map fun histogram =>
    _effective_catalog_size histogram (histogram.sum : ℚ) true

/-- Embedding of `scipy.stats.entropy` on a count vector with natural log:
normalize to a probability vector, then `Σ -p·log p` (zero counts contribute
zero, matching the `0·log 0 = 0` convention — `Real.log 0 = 0` in Mathlib). -/
noncomputable def entropyFn (h : List ℕ) : ℝ :=
  ((castR h).map fun c => -((c / (h.sum : ℝ)) * Real.log (c / (h.sum : ℝ)))).sum

/-- Embedding of the classmethod `DiversityMetrics.shannon_index`
(defined twice, identically, in the source; embedded once). -/
noncomputable def shannon_indexE {α : Type} [DecidableEq α]
    (items : List (PyItem α)) (base : Option ℝ) : Except PyErr ℝ :=
  (_get_histogram items).map fun histogram =>
    match base with
    | none => entropyFn histogram
    | some b => entropyFn histogram / Real.log b

/-- Running prefix sums, `np.cumsum`. -/
def cumsum : List ℚ → List ℚ
  | [] => []
  | a :: rest => a :: (cumsum rest).map (fun x => a + x)

/-- Embedding of `np.linspace(0.0, 1.0, k)`.  For `k = 1` numpy returns
`[0.0]`, which the formula below also produces because `0 / 0 = 0` in `ℚ`. -/
def linspace01 (k : ℕ) : List ℚ :=
  (List.range k).map fun i => (i : ℚ) / ((k : ℚ) - 1)

/-- One observable call of a plotting entry point: the value handed back to
the caller, the files written on disk, and the data drawn. -/
structure PlotCall where
  retVal : Option (List ℚ × List ℚ)
  files_written : List String
  lorenz_curve : List ℚ
  x_axis : List ℚ
  deriving DecidableEq, Repr

/-- Embedding of `DiversityMetrics.get_lorenz_curve`.

```
categories_histogram = cls._get_histogram(items)[::-1]
scaled_prefix_sum = categories_histogram.cumsum() / categories_histogram.sum()
lorenz_curve = np.insert(scaled_prefix_sum, 0, 0)
_, ax = pyplot.subplots()
x_axis = np.linspace(0.0, 1.0, lorenz_curve.size)
... (two fill_between calls, plot) ...
pyplot.savefig("Lorenz.png")        -- file I/O
                                    -- python returns None
```
-/
def get_lorenz_curve {α : Type} [DecidableEq α] (items : List (PyItem α)) :
    Except PyErr PlotCall :=
  (_get_histogram items).map fun h =>
    let categories_histogram := h.reverse
    let scaled_prefix_sum :=
      (cumsum (castQ categories_histogram)).map
        (fun x => x / (categories_histogram.sum : ℚ))
    let lorenz_curve := 0 :: scaled_prefix_sum
    { retVal := none
      files_written := ["Lorenz.png"]
      lorenz_curve := lorenz_curve
      x_axis := linspace01 lorenz_curve.length }

/-- Embedding of `collections.Counter(items).most_common()` together with the
percentage column of `DiversityMetrics.get_distribution`: (category, count,
percentage of total), ordered by descending count. -/
def mostCommon {α : Type} [DecidableEq α] (l : List α) : List (α × ℕ × ℚ) :=
  (List.insertionSort (fun p q : α × ℕ => q.2 ≤ p.2)
      (l.dedup.map fun a => (a, l.count a))).map
    fun p => (p.1, p.2, (p.2 : ℚ) / (l.length : ℚ))

/-- Embedding of `DiversityMetrics.get_distribution`: it, too, starts with
`next(iter(items))` (`StopIteration` on an empty input), flattens when the
first element is a non-string sequence, builds the counter table, draws a bar
chart and writes `distribution.png`, returning the table. -/
def get_distributionE {α : Type} [DecidableEq α] (items : List (PyItem α)) :
    Except PyErr (List (α × ℕ × ℚ) × List String) :=
  match items with
  | [] => Except.error PyErr.stopIteration
  | PyItem.seq _ :: _ =>
      if items.all (fun it => !it.isScalar) then
        Except.ok (mostCommon (items.map PyItem.labels).flatten, ["distribution.png"])
      else Except.error PyErr.typeError
  | PyItem.scalar _ :: _ =>
      if items.all (fun it => it.isScalar) then
        Except.ok (mostCommon (items.filterMap PyItem.asScalar), ["distribution.png"])
      else Except.error PyErr.typeError

/-! ## Recommender embedding (`src/rsdiv/recommenders/ials.py`) -/

/-- Dot product of two dense vectors (`a @ b`); `numpy` broadcasting is not
needed by any claim, so the zip truncates at the shorter vector. -/
def dot (a b : List ℚ) : ℚ :=
  ((a.zip b).map fun p => p.1 * p.2).sum

/-- The state of an `IALSRecommender` visible to the embedded methods.

The fields `user_array`, `item_array`, `toppop` and the token→index map are
owned by `base.py`, a file of this repository that is not under `src/`.
Modelled from the spec: "bidirectional maps between external item/user tokens
and internal indices" and "the cached top-popular fallback ranking";
`user_index` returns the internal index of a known token and `none` for an
unknown token (indices start at `0`).  `ials_recommend` is the opaque factor
model's `recommend` (`user_id`, `N` ↦ ranked item ids); `user_factors` and
`item_factors` are its embedding matrices, one row per user/item. -/
structure RecState where
  user_array : List String
  item_array : List String
  toppop_rank : List ℕ
  toppop_scores : List ℚ
  user_index : String → Option ℕ
  user_factors : List (List ℚ)
  item_factors : List (List ℚ)
  ials_recommend : ℕ → ℕ → List ℕ

/-- Python truthiness of an `Optional[int]`: `if user_id:` is false both for
`None` and for the integer `0`. -/
def pyTruthyIdx : Option ℕ → Bool
  | none => false
  | some n => decide (n ≠ 0)

/-- Embedding of `IALSRecommender.recommend_single`.

```
if user_string in self.user_array:
    user_id = self.get_user_id(user_string)
    ids, _ = self.ials.recommend(user_id, self.train_mat[user_id], N=top_k)
    indices = np.asarray(ids)
else:
    rank, _ = self.toppop
    indices = rank[:top_k]
return [self.item_array[index] for index in indices]
```

In the known branch `get_user_id` necessarily yields an index (the token is
in `user_array`), modelled by `Option.getD`. -/
def recommend_single (s : RecState) (user_string : String) (top_k : ℕ) :
    List String :=
  if user_string ∈ s.user_array then
    let user_id := (s.user_index user_string).getD 0
    let ids := s.ials_recommend user_id top_k
    ids.map fun index => s.item_array.getD index ""
  else
    let indices := s.toppop_rank.take top_k
    indices.map fun index => s.item_array.getD index ""

/-- Embedding of `IALSRecommender.get_score_single_user`.

```
user_id = self.get_user_id(user_string)
if user_id:
    user_factor = self.get_user_factors()[user_id]
    item_factors = self.get_item_factors()[keep_indices]
    scores = np.asarray(user_factor @ item_factors.T)
    return scores
else:
    return None
```

Note the truthiness test `if user_id:` — not `if user_id is not None:`. -/
def get_score_single_user (s : RecState) (user_string : String)
    (keep_indices : List ℕ) : Option (List ℚ) :=
  let user_id := s.user_index user_string
  if pyTruthyIdx user_id then
    let user_factor := s.user_factors.getD (user_id.getD 0) []
    some (keep_indices.map fun i => dot user_factor (s.item_factors.getD i []))
  else
    none

/-- Embedding of `IALSRecommender.mask_items` acting on the item-factor
matrix.  `mask = np.ones(n, bool); mask[keep_row] = False;
item_factors[mask] = 0` zeroes exactly the rows whose index is not in
`keep_row`; the recursion below applies that row-wise conditional with a
running row index. -/
def mask_items_aux (keep_row : List ℕ) : ℕ → List (List ℚ) → List (List ℚ)
  | _, [] => []
  | i, row :: rest =>
      (if i ∈ keep_row then row else List.replicate row.length 0)
        :: mask_items_aux keep_row (i + 1) rest

/-- The item-factor matrix after `mask_items(keep_row)`. -/
def mask_items (item_factors : List (List ℚ)) (keep_row : List ℕ) :
    List (List ℚ) :=
  mask_items_aux keep_row 0 item_factors

/-- Embedding of `IALSRecommender.rerank_preprocess`.

```
item_clean = self.clean_items()
category = item_clean[category_col].to_list()
embedding = np.stack(item_clean[embedding_col])
org_rank, org_scores = self.recommend([user_id]); org_rank = org_rank[0]; ...
relevance_scores = org_scores[:truncate_at]
org_select = org_rank[:truncate_at]
similarity_scores = embedding[org_select]
similarity_matrix = similarity_scores @ similarity_scores.T
return (org_select, category, relevance_scores, similarity_matrix)
```

`clean_items` and `recommend` delegate to `base.py` and the opaque factor
model; their outputs (`embedding` — one vector per item, `category`,
`org_rank`/`org_scores` — the user's ranked candidates and scores) are taken
as inputs here, so the theorems quantify over every possible model output. -/
def rerank_preprocess (embedding : List (List ℚ)) (category : List String)
    (org_rank : List ℕ) (org_scores : List ℚ) (truncate_at : ℕ) :
    List ℕ × List String × List ℚ × List (List ℚ) :=
  let relevance_scores := org_scores.take truncate_at
  let org_select := org_rank.take truncate_at
  let similarity_scores := org_select.map fun i => embedding.getD i []
  let similarity_matrix :=
    similarity_scores.map fun r => similarity_scores.map fun c => dot r c
  (org_select, category, relevance_scores, similarity_matrix)

/-! ## Sparse matrices and the BM25 transform -/

/-- A `scipy.sparse` COO matrix: shape plus a list of stored
`(row, col, value)` triples. -/
structure Coo where
  nrows : ℕ
  ncols : ℕ
  entries : List (ℕ × ℕ × ℝ)

/-- The coordinate key of a stored triple. -/
def cooKey (e : ℕ × ℕ × ℝ) : ℕ × ℕ :=
  (e.1, e.2.1)

/-- Transpose (`X.T`): swap the two coordinates and the shape. -/
def Coo.transpose (X : Coo) : Coo :=
  ⟨X.ncols, X.nrows, X.entries.map fun e => (e.2.1, e.1, e.2.2)⟩

/-- The (dense) value of the matrix at `(i, j)`: sum of the stored values at
that coordinate — `0` when nothing is stored there. -/
def Coo.entry (X : Coo) (i j : ℕ) : ℝ :=
  ((X.entries.filter fun e => cooKey e == (i, j)).map fun e => e.2.2).sum

/-- Sum of the stored values in row `r` (`X.sum(axis=1)` for that row). -/
def Coo.rowSum (X : Coo) (r : ℕ) : ℝ :=
  ((X.entries.filter fun e => e.1 == r).map fun e => e.2.2).sum

/-- Number of stored entries whose column is `c` (`np.bincount(X.col)[c]`). -/
def Coo.colCount (X : Coo) (c : ℕ) : ℕ :=
  (X.entries.filter fun e => e.2.1 == c).length

/-- The body of `IALSRecommender.bm25` acting on the already-transposed
matrix `Xt`:

```
N = float(X.shape[0])
idf = np.log(N) - np.log1p(np.bincount(X.col))
row_sums = np.ravel(X.sum(axis=1))
average_length = row_sums.mean()
length_norm = (1.0 - B) + B * row_sums / average_length
X.data = X.data * (K1 + 1.0) / (K1 * length_norm[X.row] + X.data) * idf[X.col]
```
-/
noncomputable def bm25core (Xt : Coo) (K1 B : ℝ) : Coo :=
  let N : ℝ := (Xt.nrows : ℝ)
  let average_length : ℝ :=
    (((List.range Xt.nrows).map fun r => Xt.rowSum r).sum) / (Xt.nrows : ℝ)
  ⟨Xt.nrows, Xt.ncols,
    Xt.entries.map fun e =>
      (e.1, e.2.1,
        e.2.2 * (K1 + 1) /
            (K1 * ((1 - B) + B * Xt.rowSum e.1 / average_length) + e.2.2) *
          (Real.log N - Real.log (1 + (Xt.colCount e.2.1 : ℝ))))⟩

/-- Embedding of `IALSRecommender.bm25`: transpose, reweight, transpose back
(`return X.T.tocsr()` — the conversion to CSR changes the storage format,
not the matrix). -/
noncomputable def bm25 (X : Coo) (K1 B : ℝ) : Coo :=
  (bm25core X.transpose K1 B).transpose

/-! ## Helper lemmas -/

instance : IsTotal ℕ (fun a b => b ≤ a) :=
  ⟨fun a b => le_total b a⟩

instance : IsTrans ℕ (fun a b => b ≤ a) :=
  ⟨fun _ _ _ hab hbc => le_trans hbc hab⟩

instance : IsAntisymm ℕ (fun a b => b ≤ a) :=
  ⟨fun _ _ h1 h2 => le_antisymm h2 h1⟩

lemma sortDescN_perm (l : List ℕ) : (sortDescN l).Perm l :=
  List.perm_insertionSort _ l

lemma sortDescN_sorted (l : List ℕ) : (sortDescN l).Sorted (fun a b => b ≤ a) :=
  List.sorted_insertionSort _ l

lemma sortAscN_perm (l : List ℕ) : (sortAscN l).Perm l :=
  List.perm_insertionSort _ l

lemma sortAscN_sorted (l : List ℕ) : (sortAscN l).Sorted (fun a b => a ≤ b) :=
  List.sorted_insertionSort _ l

/-- A descending-sorted list reversed is the ascending insertion sort. -/
lemma reverse_eq_sortAscN {h : List ℕ} (hs : h.Sorted (fun a b => b ≤ a)) :
    h.reverse = sortAscN h := by
  refine List.eq_of_perm_of_sorted
    ((h.reverse_perm).trans (sortAscN_perm h).symm) ?_ (sortAscN_sorted h)
  exact List.pairwise_reverse.mpr hs

/-- `getD` through `map`, inside the bounds. -/
lemma getD_map_of_lt {α β : Type} (f : α → β) :
    ∀ (l : List α) (i : ℕ) (d : α) (d' : β), i < l.length →
      (l.map f).getD i d' = f (l.getD i d)
  | [], i, _, _, h => absurd h (by simp)
  | a :: l, 0, _, _, _ => rfl
  | a :: l, i + 1, d, d', h =>
      getD_map_of_lt f l i d d' (by simpa using h)

/-- `getD` through `take`, inside the truncation bound. -/
lemma getD_take_of_lt {α : Type} :
    ∀ (l : List α) (t i : ℕ) (d : α), i < t →
      (l.take t).getD i d = l.getD i d
  | [], _, _, _, _ => by simp
  | _ :: _, 0, i, _, h => absurd h (by simp)
  | _ :: _, _ + 1, 0, _, _ => rfl
  | _ :: l, t + 1, i + 1, d, h =>
      getD_take_of_lt l t i d (by omega)

/-- The dot product is commutative. -/
lemma dot_comm : ∀ a b : List ℚ, dot a b = dot b a
  | [], b => by cases b <;> simp [dot]
  | a :: as, [] => by simp [dot]
  | a :: as, b :: bs => by
      have := dot_comm as bs
      simp only [dot, List.zip_cons_cons, List.map_cons, List.sum_cons] at this ⊢
      rw [this, mul_comm]

/-- A dot product against a zero vector vanishes. -/
lemma dot_replicate_zero : ∀ (a : List ℚ) (n : ℕ),
    dot a (List.replicate n 0) = 0
  | [], _ => by simp [dot]
  | _ :: _, 0 => by simp [dot]
  | a :: as, n + 1 => by
      have := dot_replicate_zero as n
      simp only [List.replicate_succ, dot, List.zip_cons_cons, List.map_cons,
        List.sum_cons] at this ⊢
      rw [this, mul_zero, add_zero]

/-- The length of a cumulative-sum vector. -/
lemma cumsum_length : ∀ l : List ℚ, (cumsum l).length = l.length
  | [] => rfl
  | _ :: rest => by simp [cumsum, cumsum_length rest]

lemma castQ_length (l : List ℕ) : (castQ l).length = l.length := by
  simp [castQ]

/-- On a non-empty homogeneous input, `_get_histogram` returns the counts of
the flattened observation stream. -/
lemma get_histogram_ok {α : Type} [DecidableEq α] {items : List (PyItem α)}
    (hne : items ≠ []) (hh : Homog items) :
    _get_histogram items = Except.ok (valueCounts (rawLabels items)) := by
  match items, hne with
  | PyItem.scalar a :: rest, _ =>
      rcases hh with hall | hall
      · simp only [_get_histogram, hall, if_true, rawLabels]
      · simp [List.all_cons, PyItem.isScalar] at hall
  | PyItem.seq s :: rest, _ =>
      rcases hh with hall | hall
      · simp [List.all_cons, PyItem.isScalar] at hall
      · simp only [_get_histogram, hall, if_true, rawLabels]

/-! ## C5 — empty input error behaviour -/

/-- C5 counterexample: on an empty input every histogram/metric entry point
raises `StopIteration` (from `next` on an exhausted iterator), which is not
the `InputError` the claim promises.  No `InputError` exists anywhere in the
two source files. -/
theorem empty_input_raises_stopIteration_at_nat :
    gini_coefficientE ([] : List (PyItem ℕ)) = Except.error PyErr.stopIteration ∧
    effective_catalog_sizeE ([] : List (PyItem ℕ)) = Except.error PyErr.stopIteration ∧
    shannon_indexE ([] : List (PyItem ℕ)) none = Except.error PyErr.stopIteration ∧
    get_distributionE ([] : List (PyItem ℕ)) = Except.error PyErr.stopIteration ∧
    get_lorenz_curve ([] : List (PyItem ℕ)) = Except.error PyErr.stopIteration ∧
    PyErr.stopIteration ≠ PyErr.inputError :=
  ⟨rfl, rfl, rfl, rfl, rfl, by decide⟩

/-- C5 amended: for an empty input sequence, the histogram/metric entry
points (`gini_coefficient`, `effective_catalog_size`, `shannon_index`,
`get_distribution`, `get_lorenz_curve`) all raise `StopIteration` — the
uncaught exception of `next(iter(items))` on an empty iterable — rather than
`InputError` or any other exception. -/
theorem empty_input_raises_stopIteration (α : Type) [DecidableEq α] :
    gini_coefficientE ([] : List (PyItem α)) = Except.error PyErr.stopIteration ∧
    effective_catalog_sizeE ([] : List (PyItem α)) = Except.error PyErr.stopIteration ∧
    shannon_indexE ([] : List (PyItem α)) none = Except.error PyErr.stopIteration ∧
    get_distributionE ([] : List (PyItem α)) = Except.error PyErr.stopIteration ∧
    get_lorenz_curve ([] : List (PyItem α)) = Except.error PyErr.stopIteration :=
  ⟨rfl, rfl, rfl, rfl, rfl⟩

/-- Witness for `empty_input_raises_stopIteration` at the concrete label
type `ℕ`. -/
theorem empty_input_raises_stopIteration_witness :
    gini_coefficientE ([] : List (PyItem ℕ)) = Except.error PyErr.stopIteration :=
  (empty_input_raises_stopIteration ℕ).1

/-! ## C7 — Lorenz curve -/

lemma valueCounts_sorted {α : Type} [DecidableEq α] (l : List α) :
    (valueCounts l).Sorted (fun a b => b ≤ a) :=
  sortDescN_sorted _

deriving instance DecidableEq for Except

/-- C7 counterexample: on items `[1, 1, 2]`, `get_lorenz_curve` computes the
Lorenz polyline internally but hands `None` back to its caller and writes the
file `Lorenz.png` — it does not return the coordinate data, and it does
perform rendering/file I/O. -/
theorem lorenz_returns_none_and_writes_file :
    get_lorenz_curve (([1, 1, 2] : List ℕ).map PyItem.scalar) =
      Except.ok
        { retVal := none
          files_written := ["Lorenz.png"]
          lorenz_curve := [0, 1 / 3, 1]
          x_axis := [0, 1 / 2, 1] } ∧
    (["Lorenz.png"] : List String) ≠ [] := by
  refine ⟨?_, by decide⟩
  have h1 : _get_histogram (([1, 1, 2] : List ℕ).map PyItem.scalar)
      = Except.ok [2, 1] := by decide
  simp only [get_lorenz_curve, h1, Except.map, Except.ok.injEq]
  norm_num [cumsum, linspace01, castQ, List.range_succ]

/-- C7 amended: for every non-empty (homogeneous) category sequence,
`get_lorenz_curve` computes exactly the specified Lorenz-curve data — the
histogram sorted ascending, cumulatively summed, normalized by the total,
with `0` prepended, paired with a uniform grid from `0` to `1` of matching
length — but it draws that data and saves it to `Lorenz.png` (file I/O)
while returning `None` to the caller instead of the data. -/
theorem lorenz_curve_effectful_data (α : Type) [DecidableEq α]
    (items : List (PyItem α)) (hne : items ≠ []) (hh : Homog items) :
    ∃ h, _get_histogram items = Except.ok h ∧
      get_lorenz_curve items = Except.ok
        { retVal := none
          files_written := ["Lorenz.png"]
          lorenz_curve :=
            0 :: (cumsum (castQ (sortAscN h))).map
              (fun x => x / (h.sum : ℚ))
          x_axis := linspace01 (h.length + 1) } := by
  refine ⟨valueCounts (rawLabels items), get_histogram_ok hne hh, ?_⟩
  have hrev : (valueCounts (rawLabels items)).reverse
      = sortAscN (valueCounts (rawLabels items)) :=
    reverse_eq_sortAscN (valueCounts_sorted _)
  simp only [get_lorenz_curve, get_histogram_ok hne hh, Except.map]
  rw [hrev, (sortAscN_perm (valueCounts (rawLabels items))).sum_eq]
  refine congrArg Except.ok ?_
  refine congrArg (fun k => PlotCall.mk none ["Lorenz.png"] _ (linspace01 k)) ?_
  simp [cumsum_length, castQ_length,
    (sortAscN_perm (valueCounts (rawLabels items))).length_eq]

/-- Witness for `lorenz_curve_effectful_data` at items `[1, 1, 2]`. -/
theorem lorenz_curve_effectful_data_witness :
    ∃ h, _get_histogram (([1, 1, 2] : List ℕ).map PyItem.scalar) = Except.ok h ∧
      get_lorenz_curve (([1, 1, 2] : List ℕ).map PyItem.scalar) = Except.ok
        { retVal := none
          files_written := ["Lorenz.png"]
          lorenz_curve :=
            0 :: (cumsum (castQ (sortAscN h))).map
              (fun x => x / (h.sum : ℚ))
          x_axis := linspace01 (h.length + 1) } :=
  lorenz_curve_effectful_data ℕ (([1, 1, 2] : List ℕ).map PyItem.scalar)
    (by decide) (Or.inl (by decide))

/-! ## C2 — cold-start fallback of `recommend_single` -/

/-- C2: for every user token not present in the known-user set and every
`top_k`, `recommend_single` returns exactly the first `top_k` entries of the
cached top-popular ranking, translated to item tokens in the ranking's
order; and the result is identical for any two states that agree on
`user_array`, `item_array` and the top-popular cache but have arbitrary
(different) factor models — no model query influences the output. -/
theorem recommend_single_unknown_user_toppop (s s' : RecState) (u : String)
    (top_k : ℕ) (hu : u ∉ s.user_array) (h1 : s'.user_array = s.user_array)
    (h2 : s'.item_array = s.item_array) (h3 : s'.toppop_rank = s.toppop_rank) :
    recommend_single s u top_k
      = (s.toppop_rank.take top_k).map (fun index => s.item_array.getD index "")
    ∧ recommend_single s' u top_k = recommend_single s u top_k := by
  have hu' : u ∉ s'.user_array := h1 ▸ hu
  constructor
  · simp [recommend_single, hu]
  · simp [recommend_single, hu, hu', h2, h3]

/-- A small concrete recommender state: one known user "alice" at internal
index 0, two items, top-popular ranking `[1, 0]`. -/
def demoState : RecState where
  user_array := ["alice"]
  item_array := ["item0", "item1"]
  toppop_rank := [1, 0]
  toppop_scores := [5, 3]
  user_index := fun u => if u = "alice" then some 0 else none
  user_factors := [[1, 0]]
  item_factors := [[1, 0], [0, 1]]
  ials_recommend := fun _ _ => [0]

/-- The same state with a different (arbitrary) factor model answer. -/
def demoStateOtherModel : RecState :=
  { demoState with ials_recommend := fun _ _ => [1], user_factors := [[9, 9]] }

/-- Witness for `recommend_single_unknown_user_toppop`: the unknown user
"bob" gets the top-popular head under either model state. -/
theorem recommend_single_unknown_user_toppop_witness :
    recommend_single demoState "bob" 1
      = (demoState.toppop_rank.take 1).map
          (fun index => demoState.item_array.getD index "")
    ∧ recommend_single demoStateOtherModel "bob" 1
      = recommend_single demoState "bob" 1 :=
  recommend_single_unknown_user_toppop demoState demoStateOtherModel "bob" 1
    (by decide) rfl rfl rfl

/-! ## C4 — `get_score_single_user` and the unknown-user test -/

/-- The failing input for C4: a state whose (spec-modelled) token→index map
places the known user "alice" at internal index `0`. -/
def idx0State : RecState where
  user_array := ["alice"]
  item_array := ["item0"]
  toppop_rank := [0]
  toppop_scores := [1]
  user_index := fun u => if u = "alice" then some 0 else none
  user_factors := [[1, 2]]
  item_factors := [[3, 4]]
  ials_recommend := fun _ _ => [0]

/-- C4 fails on the code: `get_score_single_user` guards the scoring branch
with the python truthiness test `if user_id:`, which is false for the
integer `0`.  The known user at internal index `0` therefore gets `None`,
although the docstring (and the claim) promise `None` exactly for unknown
("new") users. -/
theorem get_score_none_for_known_user_at_index_zero :
    "alice" ∈ idx0State.user_array ∧
    idx0State.user_index "alice" = some 0 ∧
    get_score_single_user idx0State "alice" [0] = none := by
  refine ⟨by decide, by simp [idx0State], ?_⟩
  rfl

/-! ## C8 — `mask_items` -/

/-- Row `i` after `mask_items_aux` with running start index `st`. -/
lemma mask_items_aux_getD :
    ∀ (l : List (List ℚ)) (keep : List ℕ) (st i : ℕ), i < l.length →
      (mask_items_aux keep st l).getD i []
        = if st + i ∈ keep then l.getD i []
          else List.replicate (l.getD i []).length 0
  | [], _, _, i, h => absurd h (by simp)
  | row :: rest, keep, st, 0, _ => by simp [mask_items_aux]
  | row :: rest, keep, st, i + 1, h => by
      have ih := mask_items_aux_getD rest keep (st + 1) i (by simpa using h)
      simp only [mask_items_aux, List.getD_cons_succ]
      rw [ih, (by omega : st + 1 + i = st + (i + 1))]

/-- Row `i` after `mask_items`. -/
lemma mask_items_getD (l : List (List ℚ)) (keep : List ℕ) (i : ℕ)
    (hi : i < l.length) :
    (mask_items l keep).getD i []
      = if i ∈ keep then l.getD i []
        else List.replicate (l.getD i []).length 0 := by
  have := mask_items_aux_getD l keep 0 i hi
  simpa [mask_items] using this

/-- C8: after `mask_items(keep_row)`, every item-factor row with index not
in `keep_row` is all zeros, every row with index in `keep_row` is unchanged,
and any subsequent `get_score_single_user` receives a zero score at every
requested index outside `keep_row`. -/
theorem mask_items_zeroes_excluded_rows (s : RecState)
    (keep_row keep_indices : List ℕ) (u : String) (i : ℕ)
    (hi : i < s.item_factors.length) :
    (i ∉ keep_row →
      (mask_items s.item_factors keep_row).getD i []
        = List.replicate ((s.item_factors.getD i []).length) 0) ∧
    (i ∈ keep_row →
      (mask_items s.item_factors keep_row).getD i []
        = s.item_factors.getD i []) ∧
    (∀ scores,
      get_score_single_user
          { s with item_factors := mask_items s.item_factors keep_row }
          u keep_indices
        = some scores →
      ∀ k, k < keep_indices.length → keep_indices.getD k 0 = i →
        i ∉ keep_row → scores.getD k 0 = 0) := by
  refine ⟨fun hnot => ?_, fun hin => ?_, fun scores hscore k hk hki hnot => ?_⟩
  · rw [mask_items_getD s.item_factors keep_row i hi, if_neg hnot]
  · rw [mask_items_getD s.item_factors keep_row i hi, if_pos hin]
  · unfold get_score_single_user at hscore
    by_cases hpy : pyTruthyIdx (s.user_index u)
    · simp only [hpy, if_true, Option.some.injEq] at hscore
      rw [← hscore,
        getD_map_of_lt _ keep_indices k 0 0 hk, hki,
        mask_items_getD s.item_factors keep_row i hi, if_neg hnot,
        dot_replicate_zero]
    · simp [hpy] at hscore

/-- Witness for `mask_items_zeroes_excluded_rows`: in `demoState`, mask away
item `1` (keep only row `0`) and score the known user on index `1`. -/
theorem mask_items_zeroes_excluded_rows_witness :
    (1 ∉ ([0] : List ℕ) →
      (mask_items demoState.item_factors [0]).getD 1 []
        = List.replicate ((demoState.item_factors.getD 1 []).length) 0) ∧
    (1 ∈ ([0] : List ℕ) →
      (mask_items demoState.item_factors [0]).getD 1 []
        = demoState.item_factors.getD 1 []) ∧
    (∀ scores,
      get_score_single_user
          { demoState with item_factors := mask_items demoState.item_factors [0] }
          "alice" [1]
        = some scores →
      ∀ k, k < ([1] : List ℕ).length → ([1] : List ℕ).getD k 0 = 1 →
        1 ∉ ([0] : List ℕ) → scores.getD k 0 = 0) :=
  mask_items_zeroes_excluded_rows demoState [0] [1] "alice" 1 (by decide)

/-! ## C6 — `rerank_preprocess` similarity matrix -/

/-- C6: whenever the user has at least `truncate_at` ranked candidates, the
similarity matrix returned by `rerank_preprocess` has shape
`(truncate_at, truncate_at)`, is exactly symmetric, and its diagonal entry
`i` is the self inner product of candidate `i`'s embedding vector. -/
theorem rerank_similarity_matrix_symmetric (embedding : List (List ℚ))
    (category : List String) (org_rank : List ℕ) (org_scores : List ℚ)
    (truncate_at : ℕ) (hlen : truncate_at ≤ org_rank.length) :
    (rerank_preprocess embedding category org_rank org_scores
        truncate_at).2.2.2.length = truncate_at ∧
    (∀ row ∈ (rerank_preprocess embedding category org_rank org_scores
        truncate_at).2.2.2, row.length = truncate_at) ∧
    (∀ i j, i < truncate_at → j < truncate_at →
      (((rerank_preprocess embedding category org_rank org_scores
          truncate_at).2.2.2.getD i []).getD j 0)
        = (((rerank_preprocess embedding category org_rank org_scores
          truncate_at).2.2.2.getD j []).getD i 0)) ∧
    (∀ i, i < truncate_at →
      (((rerank_preprocess embedding category org_rank org_scores
          truncate_at).2.2.2.getD i []).getD i 0)
        = dot (embedding.getD (org_rank.getD i 0) [])
            (embedding.getD (org_rank.getD i 0) [])) := by
  have hsel : (org_rank.take truncate_at).length = truncate_at := by
    simp [List.length_take]; omega
  have hrows : ((org_rank.take truncate_at).map
      fun i => embedding.getD i []).length = truncate_at := by
    simp only [List.length_map]
    exact hsel
  refine ⟨by simp [rerank_preprocess, List.length_take]; omega, ?_, ?_, ?_⟩
  · intro row hrow
    simp only [rerank_preprocess, List.mem_map] at hrow
    obtain ⟨r, _, rfl⟩ := hrow
    simpa using hrows
  · intro i j hi hj
    simp only [rerank_preprocess]
    rw [getD_map_of_lt _ _ i [] [] (by rw [hrows]; exact hi),
      getD_map_of_lt _ _ j [] 0 (by rw [hrows]; exact hj),
      getD_map_of_lt _ _ j [] [] (by rw [hrows]; exact hj),
      getD_map_of_lt _ _ i [] 0 (by rw [hrows]; exact hi),
      dot_comm]
  · intro i hi
    simp only [rerank_preprocess]
    rw [getD_map_of_lt _ _ i [] [] (by rw [hrows]; exact hi),
      getD_map_of_lt _ _ i [] 0 (by rw [hrows]; exact hi),
      getD_map_of_lt _ _ i 0 [] (by rw [hsel]; exact hi),
      getD_take_of_lt org_rank truncate_at i 0 hi]

/-- Witness for `rerank_similarity_matrix_symmetric` on a concrete
two-candidate instance. -/
theorem rerank_similarity_matrix_symmetric_witness :
    (rerank_preprocess [[1, 2], [3, 4], [5, 6]] ["a", "b", "c"] [2, 0, 1]
        [9, 8, 7] 2).2.2.2.length = 2 ∧
    (∀ row ∈ (rerank_preprocess [[1, 2], [3, 4], [5, 6]] ["a", "b", "c"]
        [2, 0, 1] [9, 8, 7] 2).2.2.2, row.length = 2) ∧
    (∀ i j, i < 2 → j < 2 →
      (((rerank_preprocess [[1, 2], [3, 4], [5, 6]] ["a", "b", "c"] [2, 0, 1]
          [9, 8, 7] 2).2.2.2.getD i []).getD j 0)
        = (((rerank_preprocess [[1, 2], [3, 4], [5, 6]] ["a", "b", "c"]
          [2, 0, 1] [9, 8, 7] 2).2.2.2.getD j []).getD i 0)) ∧
    (∀ i, i < 2 →
      (((rerank_preprocess [[1, 2], [3, 4], [5, 6]] ["a", "b", "c"] [2, 0, 1]
          [9, 8, 7] 2).2.2.2.getD i []).getD i 0)
        = dot (([[1, 2], [3, 4], [5, 6]] : List (List ℚ)).getD
            (([2, 0, 1] : List ℕ).getD i 0) [])
            (([[1, 2], [3, 4], [5, 6]] : List (List ℚ)).getD
            (([2, 0, 1] : List ℕ).getD i 0) [])) :=
  rerank_similarity_matrix_symmetric [[1, 2], [3, 4], [5, 6]] ["a", "b", "c"]
    [2, 0, 1] [9, 8, 7] 2 (by decide)

/-! ## C9 — histogram invariants -/

/-- C9: for every non-empty homogeneous input, the histogram is a vector of
strictly positive counts, ordered by descending frequency, summing to the
number of raw flattened observations. -/
theorem histogram_invariants (α : Type) [DecidableEq α]
    (items : List (PyItem α)) (hne : items ≠ []) (hh : Homog items) :
    ∃ hist, _get_histogram items = Except.ok hist ∧
      (∀ c ∈ hist, 0 < c) ∧
      hist.Sorted (fun a b => b ≤ a) ∧
      hist.sum = (rawLabels items).length := by
  refine ⟨_, get_histogram_ok hne hh, ?_, valueCounts_sorted _, ?_⟩
  · intro c hc
    have hc' := (sortDescN_perm _).mem_iff.mp hc
    obtain ⟨a, ha, rfl⟩ := List.mem_map.mp hc'
    exact List.count_pos_iff.mpr (List.mem_dedup.mp ha)
  · rw [valueCounts, (sortDescN_perm _).sum_eq,
      List.sum_map_count_dedup_eq_length]

/-- Witness for `histogram_invariants` at multi-label items
`[[1, 2], [2], []]`. -/
theorem histogram_invariants_witness :
    ∃ hist, _get_histogram
        [PyItem.seq [1, 2], PyItem.seq [2], (PyItem.seq [] : PyItem ℕ)]
      = Except.ok hist ∧
      (∀ c ∈ hist, 0 < c) ∧
      hist.Sorted (fun a b => b ≤ a) ∧
      hist.sum = (rawLabels
        [PyItem.seq [1, 2], PyItem.seq [2], (PyItem.seq [] : PyItem ℕ)]).length :=
  histogram_invariants ℕ _ (by decide) (Or.inr (by decide))

/-! ## C1 — the Gini formula -/

/-- The rank-weighted sum `Σ h_i·(i+1)` (ranks starting at 1) in the
recursion-friendly form `rankSum (a :: s) = a + sum s + rankSum s`. -/
def rankSum : List ℕ → ℕ
  | [] => 0
  | a :: s => a + s.sum + rankSum s

lemma dotRank_succ_eq : ∀ (l : List ℕ) (k : ℕ),
    dotRank l (k + 1) = rankSum l + k * l.sum
  | [], k => by simp [dotRank, rankSum]
  | a :: s, k => by
      have ih := dotRank_succ_eq s (k + 1)
      simp only [dotRank, rankSum, List.sum_cons]
      rw [ih]; ring

lemma dotRank_one (l : List ℕ) : dotRank l 1 = rankSum l := by
  simpa using dotRank_succ_eq l 0

/-- `dotRank` as the finite sum the specification writes. -/
lemma dotRank_eq_finset : ∀ (l : List ℕ) (k : ℕ),
    dotRank l k = ∑ i in Finset.range l.length, l.getD i 0 * (i + k)
  | [], k => by simp [dotRank]
  | a :: s, k => by
      have ih := dotRank_eq_finset s (k + 1)
      simp only [dotRank, List.length_cons]
      rw [Finset.sum_range_succ', ih]
      simp only [List.getD_cons_succ, List.getD_cons_zero]
      have hsum : (∑ i in Finset.range s.length, s.getD i 0 * (i + (k + 1)))
          = ∑ x in Finset.range s.length, s.getD x 0 * (x + 1 + k) :=
        Finset.sum_congr rfl fun i _ => by ring_nf
      rw [hsum]; ring

lemma sortDescN_replicate (n c : ℕ) :
    sortDescN (List.replicate n c) = List.replicate n c := by
  refine List.Sorted.insertionSort_eq ?_
  induction n with
  | zero => simp
  | succ n ih =>
      rw [List.replicate_succ]
      exact List.Pairwise.cons
        (fun b hb => le_of_eq (List.eq_of_mem_replicate hb)) ih

lemma rankSum_replicate (n c : ℕ) :
    2 * rankSum (List.replicate n c) = c * (n * (n + 1)) := by
  induction n with
  | zero => simp [rankSum]
  | succ n ih =>
      rw [List.replicate_succ]
      simp only [rankSum, List.sum_replicate, smul_eq_mul]
      rw [Nat.mul_add, Nat.mul_add, ih]
      ring

/-- C1: `gini_coefficient` computes `1 − 2·area + 1/n` with
`area = Σ_{i=1..n} h_i·i / (S·n)` over the descending-sorted histogram; on
items `[1,1,2,3,3,3]` the result is `2/9 ≈ 0.222`; and every all-equal
histogram has Gini coefficient `0`. -/
theorem gini_formula_example_and_uniform :
    (∀ (α : Type) (_inst : DecidableEq α) (items : List (PyItem α)),
      items ≠ [] → Homog items →
      ∃ hist, _get_histogram items = Except.ok hist ∧
        gini_coefficientE items = Except.ok
          (1 - 2 * ((∑ i in Finset.range hist.length,
              ((sortDescN hist).getD i 0 : ℚ) * (i + 1))
            / ((hist.sum : ℚ) * (hist.length : ℚ))) + 1 / (hist.length : ℚ))) ∧
    gini_coefficientE (([1, 1, 2, 3, 3, 3] : List ℕ).map PyItem.scalar)
      = Except.ok (2 / 9) ∧
    (∀ n c : ℕ, 0 < n → 0 < c →
      _gini_coefficient (List.replicate n c)
        (((List.replicate n c).sum : ℕ) : ℚ) true = 0) := by
  refine ⟨?_, ?_, ?_⟩
  · intro α inst items hne hh
    refine ⟨_, get_histogram_ok hne hh, ?_⟩
    simp only [gini_coefficientE, get_histogram_ok hne hh, Except.map]
    refine congrArg Except.ok ?_
    simp only [_gini_coefficient, if_pos]
    rw [dotRank_eq_finset, (sortDescN_perm _).length_eq]
    push_cast
    rfl
  · have hhist : _get_histogram (([1, 1, 2, 3, 3, 3] : List ℕ).map PyItem.scalar)
        = Except.ok [3, 2, 1] := by decide
    simp only [gini_coefficientE, hhist, Except.map]
    refine congrArg Except.ok ?_
    norm_num [_gini_coefficient, sortDescN, List.insertionSort,
      List.orderedInsert, dotRank]
  · intro n c hn hc
    have h2 : ((2 * rankSum (List.replicate n c) : ℕ) : ℚ)
        = ((c * (n * (n + 1)) : ℕ) : ℚ) := by
      exact_mod_cast congrArg Nat.cast (rankSum_replicate n c)
    push_cast at h2
    have hnq : ((n : ℚ)) ≠ 0 := Nat.cast_ne_zero.mpr hn.ne'
    have hcq : ((c : ℚ)) ≠ 0 := Nat.cast_ne_zero.mpr hc.ne'
    have hr : ((rankSum (List.replicate n c) : ℕ) : ℚ)
        = (c : ℚ) * ((n : ℚ) * ((n : ℚ) + 1)) / 2 := by
      rw [eq_div_iff (by norm_num : (2 : ℚ) ≠ 0)]
      linarith [h2]
    simp only [_gini_coefficient, if_pos, sortDescN_replicate,
      List.length_replicate, List.sum_replicate, smul_eq_mul, dotRank_one]
    rw [hr]
    push_cast
    field_simp
    ring

/-- Witness for `gini_formula_example_and_uniform`: the uniform two-category
histogram `[3, 3]` has Gini coefficient `0`. -/
theorem gini_formula_example_and_uniform_witness :
    _gini_coefficient (List.replicate 2 3)
      (((List.replicate 2 3).sum : ℕ) : ℚ) true = 0 :=
  gini_formula_example_and_uniform.2.2 2 3 (by norm_num) (by norm_num)

/-! ## C10 — Pigou–Dalton monotonicity of the Gini coefficient

The key identity: for a descending-sorted list,
`2·Σ h_i·(i+1) = Σ_{x,y} min(x,y) + Σ x` (pairs range over all ordered
pairs of positions).  The right-hand side is permutation-invariant, which
reduces the rank-weighted sum to a multiset statistic, and a regressive
transfer decreases `Σ min` pointwise. -/

/-- `Σ_{y ∈ l} min x y`. -/
def sumMin (x : ℕ) (l : List ℕ) : ℕ :=
  (l.map fun y => min x y).sum

/-- `Σ_{x ∈ l} Σ_{y ∈ l} min x y`. -/
def pairMin (l : List ℕ) : ℕ :=
  (l.map fun x => sumMin x l).sum

lemma sumMin_cons (x a : ℕ) (l : List ℕ) :
    sumMin x (a :: l) = min x a + sumMin x l := by
  simp [sumMin]

lemma sumMin_perm (x : ℕ) {l l' : List ℕ} (h : l.Perm l') :
    sumMin x l = sumMin x l' :=
  (h.map fun y => min x y).sum_eq

lemma pairMin_cons (a : ℕ) (l : List ℕ) :
    pairMin (a :: l) = a + 2 * sumMin a l + pairMin l := by
  simp only [pairMin, List.map_cons, List.sum_cons, sumMin_cons]
  have h1 : (l.map fun x => min x a + sumMin x l).sum
      = (l.map fun x => min x a).sum + (l.map fun x => sumMin x l).sum :=
    List.sum_map_add
  have h2 : (l.map fun x => min x a) = l.map fun x => min a x :=
    List.map_congr_left fun x _ => min_comm x a
  simp only [h1, h2, min_self]
  have h3 : (l.map fun x => min a x).sum = sumMin a l := rfl
  omega

lemma pairMin_perm : ∀ {l l' : List ℕ}, l.Perm l' → pairMin l = pairMin l' := by
  intro l l' h
  unfold pairMin
  rw [List.map_congr_left fun x _ => sumMin_perm x h]
  exact (h.map fun x => sumMin x l').sum_eq

/-- The identity `2·rankSum = pairMin + sum` on descending-sorted lists. -/
lemma two_rankSum_eq_pairMin :
    ∀ l : List ℕ, l.Sorted (fun a b => b ≤ a) →
      2 * rankSum l = pairMin l + l.sum
  | [], _ => by simp [rankSum, pairMin]
  | a :: s, hsort => by
      obtain ⟨ha, hs⟩ := List.pairwise_cons.mp hsort
      have ih := two_rankSum_eq_pairMin s hs
      have hmin : sumMin a s = s.sum := by
        unfold sumMin
        rw [List.map_congr_left fun y hy => min_eq_right (ha y hy)]
        simp
      simp only [rankSum, pairMin_cons, List.sum_cons, hmin]
      omega

/-- The rank-weighted sum over the descending sort, as a multiset
statistic. -/
lemma two_rankSum_sortDescN (l : List ℕ) :
    2 * rankSum (sortDescN l) = pairMin l + l.sum := by
  rw [two_rankSum_eq_pairMin _ (sortDescN_sorted l),
    pairMin_perm (sortDescN_perm l), (sortDescN_perm l).sum_eq]

lemma sumMin_transfer (a b t : ℕ) (hta : t ≤ a) (hab : a ≤ b) :
    ∀ l : List ℕ,
      sumMin (a - t) l + sumMin (b + t) l ≤ sumMin a l + sumMin b l
  | [] => le_refl _
  | y :: l => by
      have ih := sumMin_transfer a b t hta hab l
      simp only [sumMin_cons]
      have hy : min (a - t) y + min (b + t) y ≤ min a y + min b y := by omega
      omega

lemma pairMin_transfer (rest : List ℕ) (a b t : ℕ) (hta : t ≤ a)
    (hab : a ≤ b) :
    pairMin ((a - t) :: (b + t) :: rest) ≤ pairMin (a :: b :: rest) := by
  have hR := sumMin_transfer a b t hta hab rest
  simp only [pairMin_cons, sumMin_cons]
  omega

/-- C10: transferring a positive amount `t` from a category with the
smaller count `a` to a category with count `b ≥ a` (with `t ≤ a`) can only
increase (weakly) the Gini coefficient computed by `_gini_coefficient` on
the histogram.  The original histogram `h` and the transferred histogram
`h'` are described up to permutation, which is all the Gini coefficient
sees after its descending sort. -/
theorem gini_pigou_dalton (h h' rest : List ℕ) (a b t : ℕ)
    (hperm : h.Perm (a :: b :: rest))
    (hperm' : h'.Perm ((a - t) :: (b + t) :: rest))
    (hab : a ≤ b) (ht : 0 < t) (hta : t ≤ a) :
    _gini_coefficient h ((h.sum : ℕ) : ℚ) true
      ≤ _gini_coefficient h' ((h'.sum : ℕ) : ℚ) true := by
  have hsum2 : h.sum = a + b + rest.sum := by
    rw [hperm.sum_eq]; simp; omega
  have hsum2' : h'.sum = (a - t) + (b + t) + rest.sum := by
    rw [hperm'.sum_eq]; simp; omega
  have hsum : h'.sum = h.sum := by omega
  have hlen : h'.length = h.length := by
    rw [hperm.length_eq, hperm'.length_eq]; simp
  have hS : 0 < h.sum := by omega
  have hn : 0 < h.length := by
    rw [hperm.length_eq]; simp
  have hW : rankSum (sortDescN h') ≤ rankSum (sortDescN h) := by
    have k1 := two_rankSum_sortDescN h
    have k2 := two_rankSum_sortDescN h'
    have p1 : pairMin h = pairMin (a :: b :: rest) := pairMin_perm hperm
    have p2 : pairMin h' = pairMin ((a - t) :: (b + t) :: rest) :=
      pairMin_perm hperm'
    have p3 := pairMin_transfer rest a b t hta hab
    omega
  simp only [_gini_coefficient, if_pos, dotRank_one,
    (sortDescN_perm h).length_eq, (sortDescN_perm h').length_eq, hlen, hsum]
  have hpos : (0 : ℚ) < ((h.sum : ℕ) : ℚ) * ((h.length : ℕ) : ℚ) := by
    have h1 : (0 : ℚ) < ((h.sum : ℕ) : ℚ) := by exact_mod_cast hS
    have h2 : (0 : ℚ) < ((h.length : ℕ) : ℚ) := by exact_mod_cast hn
    positivity
  have hdiv : ((rankSum (sortDescN h') : ℕ) : ℚ)
        / (((h.sum : ℕ) : ℚ) * ((h.length : ℕ) : ℚ))
      ≤ ((rankSum (sortDescN h) : ℕ) : ℚ)
        / (((h.sum : ℕ) : ℚ) * ((h.length : ℕ) : ℚ)) := by
    apply div_le_div_of_nonneg_right ?_ hpos.le
    exact_mod_cast hW
  linarith

/-- Witness for `gini_pigou_dalton`: transfer `1` from the category with
count `2` to the category with count `3` in the histogram `[2, 3, 1]`. -/
theorem gini_pigou_dalton_witness :
    _gini_coefficient [2, 3, 1] ((([2, 3, 1] : List ℕ).sum : ℕ) : ℚ) true
      ≤ _gini_coefficient [1, 4, 1] ((([1, 4, 1] : List ℕ).sum : ℕ) : ℚ) true :=
  gini_pigou_dalton [2, 3, 1] [1, 4, 1] [1] 2 3 1 (by decide) (by decide)
    (by decide) (by decide) (by decide)

/-! ## C3 — the BM25 transform -/

/-- Number of stored entries in row `r`. -/
def Coo.rowCount (X : Coo) (r : ℕ) : ℕ :=
  (X.entries.filter fun e => e.1 == r).length

/-- The reweighted value of one stored entry `e = (row, col, w)` of the
original (untransposed) matrix `X`, read off through the two transposes:
`length_norm` is indexed by the transposed row (the original column `e.2.1`)
and `idf` by the transposed column (the original row `e.1`). -/
noncomputable def bm25val (X : Coo) (K1 B : ℝ) (e : ℕ × ℕ × ℝ) : ℝ :=
  e.2.2 * (K1 + 1) /
      (K1 * ((1 - B) + B * X.transpose.rowSum e.2.1 /
        ((((List.range X.transpose.nrows).map
            fun r => X.transpose.rowSum r).sum) / (X.transpose.nrows : ℝ)))
        + e.2.2) *
    (Real.log (X.transpose.nrows : ℝ)
      - Real.log (1 + (X.transpose.colCount e.1 : ℝ)))

/-- `bm25` transforms the stored values in place: the entry list of the
output is the entry list of the input with every coordinate kept and every
value rewritten by `bm25val`. -/
lemma bm25_entries (X : Coo) (K1 B : ℝ) :
    (bm25 X K1 B).entries
      = X.entries.map fun e => (e.1, e.2.1, bm25val X K1 B e) := by
  simp only [bm25, bm25core, Coo.transpose, bm25val, List.map_map]
  rfl

lemma transpose_colCount (X : Coo) (u : ℕ) :
    X.transpose.colCount u = X.rowCount u := by
  unfold Coo.transpose Coo.colCount Coo.rowCount
  simp only [List.filter_map]
  rw [List.length_map]
  rfl

/-- With pairwise-distinct coordinates, the stored entries at one key form
the empty list or a singleton. -/
lemma filter_key_of_nodup :
    ∀ {l : List (ℕ × ℕ × ℝ)}, (l.map cooKey).Nodup → ∀ k : ℕ × ℕ,
      (l.filter fun e => cooKey e == k) = []
      ∨ ∃ e, e ∈ l ∧ cooKey e = k ∧ (l.filter fun e => cooKey e == k) = [e]
  | [], _, _ => Or.inl rfl
  | a :: l, hnd, k => by
      simp only [List.map_cons, List.nodup_cons] at hnd
      obtain ⟨hka, hnd'⟩ := hnd
      by_cases hak : cooKey a = k
      · refine Or.inr ⟨a, List.mem_cons_self a l, hak, ?_⟩
        rw [List.filter_cons_of_pos (by simp [hak])]
        have hnil : (l.filter fun e => cooKey e == k) = [] := by
          refine List.filter_eq_nil_iff.mpr fun e he => ?_
          simp only [beq_iff_eq]
          intro hek
          exact hka (hak ▸ hek ▸ List.mem_map_of_mem cooKey he)
        rw [hnil]
      · rw [List.filter_cons_of_neg (by simp [hak])]
        rcases filter_key_of_nodup hnd' k with h0 | ⟨e, he, hek, hfe⟩
        · exact Or.inl h0
        · exact Or.inr ⟨e, List.mem_cons_of_mem a he, hek, hfe⟩

/-- The output value of `bm25` at a stored entry's coordinate. -/
lemma bm25_entry_of_mem (X : Coo) (K1 B : ℝ)
    (hkeys : (X.entries.map cooKey).Nodup) {e : ℕ × ℕ × ℝ}
    (he : e ∈ X.entries) :
    (bm25 X K1 B).entry e.1 e.2.1 = bm25val X K1 B e := by
  unfold Coo.entry
  rw [bm25_entries, List.filter_map]
  have hpred : ((fun x => cooKey x == ((e.1, e.2.1) : ℕ × ℕ))
        ∘ fun x : ℕ × ℕ × ℝ => (x.1, x.2.1, bm25val X K1 B x))
      = fun x => cooKey x == ((e.1, e.2.1) : ℕ × ℕ) := rfl
  rw [hpred]
  rcases filter_key_of_nodup hkeys ((e.1, e.2.1) : ℕ × ℕ) with h0 | ⟨e', _, _, hfe⟩
  · exfalso
    have hin : e ∈ X.entries.filter fun x => cooKey x == ((e.1, e.2.1) : ℕ × ℕ) :=
      List.mem_filter.mpr ⟨he, by simp [cooKey]⟩
    rw [h0] at hin
    exact absurd hin (List.not_mem_nil e)
  · have hin : e ∈ X.entries.filter fun x => cooKey x == ((e.1, e.2.1) : ℕ × ℕ) :=
      List.mem_filter.mpr ⟨he, by simp [cooKey]⟩
    rw [hfe] at hin
    rw [hfe]
    simp [List.mem_singleton.mp hin]

/-- A sum over `List.range` with nonnegative terms dominates any single
term. -/
lemma range_map_sum_pos (f : ℕ → ℝ) (n j : ℕ) (hj : j < n)
    (hf : ∀ i, 0 ≤ f i) (hfj : 0 < f j) :
    0 < ((List.range n).map f).sum := by
  induction n with
  | zero => omega
  | succ n ih =>
      rw [List.range_succ, List.map_append, List.sum_append]
      rcases Nat.lt_or_ge j n with hlt | hge
      · have hih := ih hlt
        simp only [List.map_cons, List.map_nil, List.sum_cons, List.sum_nil]
        have := hf n
        linarith
      · have hjn : j = n := by omega
        subst hjn
        have hrest : 0 ≤ ((List.range j).map f).sum :=
          List.sum_nonneg fun x hx => by
            obtain ⟨i, _, rfl⟩ := List.mem_map.mp hx
            exact hf i
        simp only [List.map_cons, List.map_nil, List.sum_cons, List.sum_nil]
        linarith

/-- Every per-row sum of a matrix with positive stored values is
nonnegative. -/
lemma rowSum_nonneg (X : Coo) (hpos : ∀ e ∈ X.entries, 0 < e.2.2) (r : ℕ) :
    0 ≤ X.rowSum r := by
  refine List.sum_nonneg fun x hx => ?_
  obtain ⟨e, he, rfl⟩ := List.mem_map.mp hx
  exact (hpos e (List.mem_filter.mp he).1).le

/-- The row sum of a row holding a stored positive entry is positive. -/
lemma rowSum_pos (X : Coo) (hpos : ∀ e ∈ X.entries, 0 < e.2.2)
    {e : ℕ × ℕ × ℝ} (he : e ∈ X.entries) : 0 < X.rowSum e.1 := by
  refine List.sum_pos _ (fun x hx => ?_) ?_
  · obtain ⟨e', he', rfl⟩ := List.mem_map.mp hx
    exact hpos e' (List.mem_filter.mp he').1
  · have hin : e.2.2 ∈ (X.entries.filter fun x => x.1 == e.1).map
        fun x => x.2.2 :=
      List.mem_map_of_mem _ (List.mem_filter.mpr ⟨he, by simp⟩)
    exact List.ne_nil_of_mem hin

/-- C3 counterexample: the single-entry `1 × 1` matrix with weight `2`
(`K1 = 100`, `B = 0.8`) has a strictly positive stored entry whose BM25
output is strictly negative — `idf = ln 1 − ln 2 < 0` flips the sign — so
the transform does not map every positive input entry to a positive output
entry. -/
theorem bm25_negative_output_on_positive_entry :
    0 < (Coo.entry ⟨1, 1, [(0, 0, 2)]⟩ 0 0) ∧
    (bm25 ⟨1, 1, [(0, 0, 2)]⟩ 100 (4 / 5)).entry 0 0 < 0 := by
  constructor
  · norm_num [Coo.entry, cooKey, List.filter]
  · have hmem : ((0, 0, 2) : ℕ × ℕ × ℝ) ∈ (⟨1, 1, [(0, 0, 2)]⟩ : Coo).entries :=
      List.mem_singleton.mpr rfl
    have hkeys : (((⟨1, 1, [(0, 0, 2)]⟩ : Coo).entries.map cooKey)).Nodup := by
      simp [cooKey]
    have hentry := bm25_entry_of_mem (⟨1, 1, [(0, 0, 2)]⟩ : Coo) 100 (4 / 5)
      hkeys hmem
    rw [hentry]
    unfold bm25val Coo.transpose Coo.rowSum Coo.colCount
    norm_num [List.range_succ, List.filter]
    have hlog : 0 < Real.log 2 := Real.log_pos (by norm_num)
    have hfac : (0 : ℝ) < 2 * 101 / 102 := by norm_num
    nlinarith [mul_pos hfac hlog]

/-- C3 amended: over a canonical COO matrix (pairwise-distinct stored
coordinates) with strictly positive stored values, in-range columns and
`0 ≤ K1`, `0 ≤ B ≤ 1`, the BM25 transform preserves the sparsity pattern —
every zero entry of the input is zero in the output — and a stored positive
entry maps to a strictly positive output whenever its idf factor is
positive, i.e. whenever the number of stored entries in its row is smaller
than `ncols − 1` (the counterexample shows positivity fails without this
idf condition). -/
theorem bm25_sparsity_and_conditional_positivity (X : Coo) (K1 B : ℝ)
    (hkeys : (X.entries.map cooKey).Nodup)
    (hpos : ∀ e ∈ X.entries, 0 < e.2.2)
    (hcols : ∀ e ∈ X.entries, e.2.1 < X.ncols)
    (hK1 : 0 ≤ K1) (hB0 : 0 ≤ B) (hB1 : B ≤ 1) :
    (∀ i j, X.entry i j = 0 → (bm25 X K1 B).entry i j = 0) ∧
    (∀ e ∈ X.entries, ((X.rowCount e.1 : ℝ) + 1 < (X.ncols : ℝ)) →
      0 < (bm25 X K1 B).entry e.1 e.2.1) := by
  constructor
  · intro i j hz
    unfold Coo.entry at hz ⊢
    rw [bm25_entries, List.filter_map]
    have hpred : ((fun x => cooKey x == ((i, j) : ℕ × ℕ))
          ∘ fun x : ℕ × ℕ × ℝ => (x.1, x.2.1, bm25val X K1 B x))
        = fun x => cooKey x == ((i, j) : ℕ × ℕ) := rfl
    rw [hpred]
    rcases filter_key_of_nodup hkeys ((i, j) : ℕ × ℕ) with h0 | ⟨e, he, hek, hfe⟩
    · rw [h0]; rfl
    · rw [hfe] at hz ⊢
      simp only [List.map_cons, List.map_nil, List.sum_cons, List.sum_nil,
        add_zero] at hz ⊢
      simp [bm25val, hz]
  · intro e he hidf
    rw [bm25_entry_of_mem X K1 B hkeys he]
    have hw : 0 < e.2.2 := hpos e he
    have hXt : X.transpose.nrows = X.ncols := rfl
    have hdf0 : (0 : ℝ) ≤ (X.rowCount e.1 : ℝ) := Nat.cast_nonneg _
    have hN1 : (1 : ℝ) < (X.ncols : ℝ) := by linarith
    have hNpos : (0 : ℝ) < (X.ncols : ℝ) := by linarith
    have hidfpos : 0 < Real.log ((X.transpose.nrows : ℝ))
        - Real.log (1 + (X.transpose.colCount e.1 : ℝ)) := by
      rw [hXt, transpose_colCount]
      have h1 : (0 : ℝ) < 1 + (X.rowCount e.1 : ℝ) := by linarith
      have h2 : 1 + (X.rowCount e.1 : ℝ) < (X.ncols : ℝ) := by linarith
      exact sub_pos.mpr (Real.log_lt_log h1 h2)
    have hposT : ∀ e' ∈ X.transpose.entries, 0 < e'.2.2 := by
      intro e' he'
      obtain ⟨e'', he'', rfl⟩ := List.mem_map.mp he'
      exact hpos e'' he''
    have heT : ((e.2.1, e.1, e.2.2) : ℕ × ℕ × ℝ) ∈ X.transpose.entries := by
      unfold Coo.transpose
      exact List.mem_map_of_mem _ he
    have hrs : 0 < X.transpose.rowSum e.2.1 :=
      rowSum_pos X.transpose hposT heT
    have htot : 0 < (((List.range X.transpose.nrows).map
        fun r => X.transpose.rowSum r).sum) := by
      refine range_map_sum_pos _ _ e.2.1 ?_ (rowSum_nonneg X.transpose hposT) hrs
      rw [hXt]
      exact hcols e he
    have havg : 0 < (((List.range X.transpose.nrows).map
          fun r => X.transpose.rowSum r).sum) / (X.transpose.nrows : ℝ) := by
      refine div_pos htot ?_
      rw [hXt]
      exact hNpos
    have hlnorm : 0 < (1 - B) + B * X.transpose.rowSum e.2.1 /
        ((((List.range X.transpose.nrows).map
          fun r => X.transpose.rowSum r).sum) / (X.transpose.nrows : ℝ)) := by
      rcases eq_or_lt_of_le hB0 with hB | hB
      · rw [← hB]; norm_num
      · have hterm : 0 < B * X.transpose.rowSum e.2.1 /
            ((((List.range X.transpose.nrows).map
              fun r => X.transpose.rowSum r).sum) / (X.transpose.nrows : ℝ)) :=
          div_pos (mul_pos hB hrs) havg
        linarith
    have hdenom : 0 < K1 * ((1 - B) + B * X.transpose.rowSum e.2.1 /
        ((((List.range X.transpose.nrows).map
          fun r => X.transpose.rowSum r).sum) / (X.transpose.nrows : ℝ)))
        + e.2.2 := by
      have hnn := mul_nonneg hK1 hlnorm.le
      linarith
    have hfac : 0 < e.2.2 * (K1 + 1) /
        (K1 * ((1 - B) + B * X.transpose.rowSum e.2.1 /
          ((((List.range X.transpose.nrows).map
            fun r => X.transpose.rowSum r).sum) / (X.transpose.nrows : ℝ)))
          + e.2.2) :=
      div_pos (mul_pos hw (by linarith)) hdenom
    unfold bm25val
    exact mul_pos hfac hidfpos

/-- A `1 × 3` matrix with one stored entry, used to witness the amended
BM25 claim (here `idf = ln 3 − ln 2 > 0`). -/
def bm25DemoMat : Coo :=
  ⟨1, 3, [(0, 0, 2)]⟩

/-- Witness for `bm25_sparsity_and_conditional_positivity` on
`bm25DemoMat`. -/
theorem bm25_sparsity_and_conditional_positivity_witness :
    (∀ i j, bm25DemoMat.entry i j = 0 →
      (bm25 bm25DemoMat 100 (4 / 5)).entry i j = 0) ∧
    (∀ e ∈ bm25DemoMat.entries,
      ((bm25DemoMat.rowCount e.1 : ℝ) + 1 < (bm25DemoMat.ncols : ℝ)) →
      0 < (bm25 bm25DemoMat 100 (4 / 5)).entry e.1 e.2.1) :=
  bm25_sparsity_and_conditional_positivity bm25DemoMat 100 (4 / 5)
    (by simp [bm25DemoMat, cooKey])
    (by intro e he; simp [bm25DemoMat] at he; simp [he])
    (by intro e he; simp [bm25DemoMat] at he; simp [he, bm25DemoMat])
    (by norm_num) (by norm_num) (by norm_num)

end Rsdiv
